import Mathlib

/-!
Verification of the event-parsing and temporal-segmentation core of the
WhatsApp chat analyzer (`src/main.py`).

The embedding has two layers, mirroring the program:

* a parsing layer over raw text lines (`parseLine`, modelling the regex
  `(\d{2}/\d{2}/\d{4}),\s(\d{2}:\d{2})\s-\s([^:]+):\s(.+)` applied with
  `re.match` to `line.strip()` in `parse_chat`), working on `List Char`;
* an analysis layer over the ordered event sequence (`List Event`),
  modelling the single-pass scans of `streak_analysis`,
  `author_interaction_matrix`, `response_time_analysis`,
  `author_response_rate`, `conversation_length_analysis`,
  `reply_chain_depth`, `reply_speed_by_author` and `monologue_detection`.

Timestamps are modelled in whole seconds (the source holds pandas
datetimes; seconds keep sub-minute gap examples such as 4 min 59 s
expressible).  Gaps in minutes are exact rationals: the source computes
`(curr - prev).total_seconds() / 60`; we build the same rational with
`mkRat` (see `time_diff_eq_div`) so that the definitions evaluate inside
the kernel.
-/

/-- One parsed message event as consumed by the analyses: timestamp in
whole seconds since the epoch and the author display name. -/
structure Event where
  ts : Int
  author : String
deriving DecidableEq

/-- `df['date_only']`: the calendar date of an event, as a whole number of
days since the epoch (`datetime.date()` truncates the time of day). -/
def date_only (e : Event) : Int := e.ts.fdiv 86400

/-- `(df.iloc[i]['datetime'] - df.iloc[i-1]['datetime']).total_seconds() / 60`:
the gap between two consecutive events in minutes, an exact rational.
`mkRat` is used instead of `/` so the value reduces in the kernel;
`time_diff_eq_div` states that it is the same number. -/
def time_diff (p c : Event) : ℚ := mkRat (c.ts - p.ts) 60

theorem time_diff_eq_div (p c : Event) :
    time_diff p c = ((c.ts - p.ts : Int) : ℚ) / 60 := by
  rw [time_diff, Rat.mkRat_eq_div]
  norm_num

/-- `response_time_analysis`, first loop: collect `time_diff` for every
consecutive pair whose authors differ, keeping only gaps strictly under
60 minutes. -/
def response_times : List Event → List ℚ
  | p :: c :: rest =>
      (if c.author ≠ p.author ∧ time_diff p c < 60 then [time_diff p c] else [])
        ++ response_times (c :: rest)
  | _ => []

/-- `sorted(response_times)[len(response_times)//2]` guarded by
`if response_times:` — the median reported by `response_time_analysis`
(`none` models the "Not enough data" branch).  `List.insertionSort` models
Python `sorted` (same values; reduces in the kernel). -/
def response_time_median (es : List Event) : Option ℚ :=
  match response_times es with
  | [] => none
  | l => some ((l.insertionSort (· ≤ ·)).getD (l.length / 2) 0)

/-- `author_interaction_matrix`: for every consecutive pair with distinct
authors and a gap strictly under 10 minutes, record the directed pair
`(previous author, current author)`. -/
def interactions : List Event → List (String × String)
  | p :: c :: rest =>
      (if c.author ≠ p.author ∧ time_diff p c < 10 then [(p.author, c.author)] else [])
        ++ interactions (c :: rest)
  | _ => []

/-- `reply_speed_by_author`: the list `reply_times[a]` — gaps strictly
under 60 minutes at speaker-change transitions whose current (replying)
author is `a`, in scan order. -/
def reply_times (a : String) : List Event → List ℚ
  | p :: c :: rest =>
      (if c.author ≠ p.author ∧ time_diff p c < 60 ∧ c.author = a
        then [time_diff p c] else [])
        ++ reply_times a (c :: rest)
  | _ => []

/-- First-occurrence deduplication, modelling pandas
`df['author'].unique()` (insertion order of the `reply_times` dict). -/
def uniqueFirstAux {α : Type} [DecidableEq α] (seen : List α) : List α → List α
  | [] => []
  | a :: l => if a ∈ seen then uniqueFirstAux seen l else a :: uniqueFirstAux (a :: seen) l

/-- `df['author'].unique()` — distinct authors in order of first message. -/
def uniqueFirst {α : Type} [DecidableEq α] (l : List α) : List α := uniqueFirstAux [] l

/-- `reply_speed_by_author`: `avg_reply`, the (author, mean reply time)
pairs for authors with strictly more than 5 qualifying samples, sorted by
mean ascending (`avg_reply.sort(key=lambda x: x[1])`); the display slice
`[:15]` is presentation and not modelled. -/
def avg_reply (es : List Event) : List (String × ℚ) :=
  ((uniqueFirst (es.map Event.author)).filterMap fun a =>
      if 5 < (reply_times a es).length
      then some (a, (reply_times a es).sum / ((reply_times a es).length : ℚ))
      else none).insertionSort (fun x y => x.2 ≤ y.2)

/-- `author_response_rate`: `author_messages[a]`, the number of events by
author `a` (incremented once per event in the scan). -/
def author_messages (a : String) (es : List Event) : Nat :=
  (es.filter (fun e => e.author = a)).length

/-- `author_response_rate`: `author_responses[a]`, incremented at every
index `i > 0` whose author is `a`, differs from the author at `i-1`, and
whose gap is strictly under 15 minutes. -/
def author_responses (a : String) : List Event → Nat
  | p :: c :: rest =>
      (if c.author = a ∧ c.author ≠ p.author ∧ time_diff p c < 15 then 1 else 0)
        + author_responses a (c :: rest)
  | _ => 0

/-- `response_rate = author_responses[author] / author_messages[author] * 100`
(computed in the source only when `author_messages[author] > 0`). -/
def response_rate (a : String) (es : List Event) : ℚ :=
  (author_responses a es : ℚ) / (author_messages a es : ℚ) * 100

/-- The break test of `conversation_length_analysis`: continuation holds
when `time_diff < 5` minutes. -/
def burst_cont (p c : Event) : Bool := decide (time_diff p c < 5)

/-- The break test of `reply_chain_depth`: continuation holds when
`time_diff < 2` minutes. -/
def chain_cont (p c : Event) : Bool := decide (time_diff p c < 2)

/-- The break test of `monologue_detection` phrased on an adjacent pair:
the run continues while the author is unchanged. -/
def mono_cont (p c : Event) : Bool := decide (c.author = p.author)

/-- The shared loop shape of `conversation_length_analysis` and
`reply_chain_depth` (both are this text with a different threshold and
minimum): walk consecutive pairs; on continuation grow the current run
counter, on a break append the counter to the accumulator when `keep`
accepts it and restart at 1.  The counter still in progress when the list
ends is returned unevaluated — exactly as in the source, whose loops have
no flush after `for i in range(1, len(self.df))`. -/
def scan_runs_aux (cont : Event → Event → Bool) (keep : Nat → Bool) :
    Event → Nat → List Nat → List Event → List Nat
  | _, _, acc, [] => acc
  | p, cur, acc, c :: rest =>
      if cont p c then scan_runs_aux cont keep c (cur + 1) acc rest
      else scan_runs_aux cont keep c 1 (acc ++ if keep cur then [cur] else []) rest

/-- Entry point of the shared loop: `current_burst = 1` and an empty
accumulator, scanning from the second event on. -/
def scan_runs (cont : Event → Event → Bool) (keep : Nat → Bool) :
    List Event → List Nat
  | [] => []
  | e :: rest => scan_runs_aux cont keep e 1 [] rest

/-- `conversation_length_analysis`: the `bursts` list (burst sizes kept
when `current_burst > 1`). -/
def bursts : List Event → List Nat := scan_runs burst_cont (fun n => 1 < n)

/-- `reply_chain_depth`: the `chain_lengths` list (chain sizes kept when
`current_chain > 2`). -/
def chain_lengths : List Event → List Nat := scan_runs chain_cont (fun n => 2 < n)

/-- `monologue_detection`, loop body: track the current author, run
length and run start event; on an author change append
`(author, count, start timestamp)` when `current_count >= 5`.  As in the
source, the run still in progress at the end of the scan is dropped. -/
def monologues_aux (a : String) (cur : Nat) (startEv : Event)
    (acc : List (String × Nat × Int)) : List Event → List (String × Nat × Int)
  | [] => acc
  | c :: rest =>
      if c.author = a then monologues_aux a (cur + 1) startEv acc rest
      else
        monologues_aux c.author 1 c
          (acc ++ if 5 ≤ cur then [(a, cur, startEv.ts)] else []) rest

/-- `monologue_detection`: seeds the loop with `self.df.iloc[0]`, which
raises `IndexError` on an empty frame — modelled as `none`.  (The final
sort by count for display is presentation and not modelled.) -/
def monologue_detection : List Event → Option (List (String × Nat × Int))
  | [] => none
  | e :: rest => some (monologues_aux e.author 1 e [] rest)

/-- `streak_analysis`: `dates = sorted(self.df['date_only'].unique())` —
the ascending list of distinct calendar dates having at least one event. -/
def sorted_dates (es : List Event) : List Int :=
  ((es.map date_only).dedup).insertionSort (· ≤ ·)

/-- `streak_analysis`, loop: extend the running streak when consecutive
distinct dates are exactly one day apart, recording the maximum and the
date at which it was last extended; reset to 1 otherwise. -/
def streak_loop (prev : Int) (cur maxS : Nat) (endD : Int) : List Int → Nat × Int
  | [] => (maxS, endD)
  | d :: rest =>
      if d - prev = 1 then
        if cur + 1 > maxS then streak_loop d (cur + 1) (cur + 1) d rest
        else streak_loop d (cur + 1) maxS endD rest
      else streak_loop d 1 maxS endD rest

/-- `streak_analysis`: seeds `streak_end = dates[0]`, which raises
`IndexError` when there are no events — modelled as `none`; otherwise
returns (longest streak, streak end date). -/
def streak_analysis (es : List Event) : Option (Nat × Int) :=
  match sorted_dates es with
  | [] => none
  | d :: rest => some (streak_loop d 1 1 d rest)

/-! ### Parsing layer (`parse_chat`) -/

/-- The whitespace class of the regex token `\s` and of `str.strip()`
(ASCII part; the exotic Unicode space code points play no role in chat
exports and are out of the model). -/
def isPySpace (c : Char) : Bool :=
  c == ' ' || c == '\t' || c == '\n' || c == '\r' || c == '\x0b' || c == '\x0c'

/-- `line.strip()`: drop leading and trailing whitespace. -/
def pyStrip (s : List Char) : List Char :=
  ((s.dropWhile isPySpace).reverse.dropWhile isPySpace).reverse

/-- One regex token `\d{n}` (or any fixed-width class): consume exactly
`n` characters all satisfying `p`. -/
def takeCount (n : Nat) (p : Char → Bool) (s : List Char) :
    Option (List Char × List Char) :=
  if (s.take n).length = n ∧ (s.take n).all p then some (s.take n, s.drop n) else none

/-- One literal character of the regex. -/
def expectChar (a : Char) : List Char → Option (List Char)
  | c :: rest => if c = a then some rest else none
  | [] => none

/-- One regex token `\s`. -/
def expectSpace : List Char → Option (List Char)
  | c :: rest => if isPySpace c then some rest else none
  | [] => none

/-- One row appended by `parse_chat`: the four regex capture groups, with
author and message stripped (`author.strip()`, `message.strip()`). -/
structure RawEvent where
  date : List Char
  time : List Char
  author : List Char
  message : List Char
deriving DecidableEq

/-- The regex fragment `(\d{2}/\d{2}/\d{4})`: capture group 1, the date. -/
def parseDate (s : List Char) : Option (List Char × List Char) := do
  let (dd, s1) ← takeCount 2 Char.isDigit s
  let s2 ← expectChar '/' s1
  let (mm, s3) ← takeCount 2 Char.isDigit s2
  let s4 ← expectChar '/' s3
  let (yy, s5) ← takeCount 4 Char.isDigit s4
  pure (dd ++ '/' :: mm ++ '/' :: yy, s5)

/-- The regex fragment `(\d{2}:\d{2})`: capture group 2, the time. -/
def parseTime (s : List Char) : Option (List Char × List Char) := do
  let (hh, s1) ← takeCount 2 Char.isDigit s
  let s2 ← expectChar ':' s1
  let (mi, s3) ← takeCount 2 Char.isDigit s2
  pure (hh ++ ':' :: mi, s3)

/-- The regex fragment `([^:]+):`: capture group 3, the author.  `[^:]+`
cannot cross a colon, so it is the maximal nonempty colon-free prefix,
and the next character must be the colon. -/
def parseAuthor (s : List Char) : Option (List Char × List Char) :=
  if s.takeWhile (fun c => c != ':') = [] then none
  else
    match expectChar ':' (s.dropWhile (fun c => c != ':')) with
    | none => none
    | some rest => some (s.takeWhile (fun c => c != ':'), rest)

/-- `re.match(r'(\d{2}/\d{2}/\d{4}),\s(\d{2}:\d{2})\s-\s([^:]+):\s(.+)', line.strip())`:
the per-line parser.  `(.+)` is the maximal nonempty newline-free prefix
of what remains (`re.match` does not anchor the end of the string).
A line that fails any step yields `none` — no event, no error. -/
def parseLine (line : List Char) : Option RawEvent := do
  let (date, s1) ← parseDate (pyStrip line)
  let s2 ← expectChar ',' s1
  let s3 ← expectSpace s2
  let (time, s4) ← parseTime s3
  let s5 ← expectSpace s4
  let s6 ← expectChar '-' s5
  let s7 ← expectSpace s6
  let (auth, s8) ← parseAuthor s7
  let s9 ← expectSpace s8
  if s9.takeWhile (fun c => c != '\n') = [] then none
  else
    some ⟨date, time, pyStrip auth, pyStrip (s9.takeWhile (fun c => c != '\n'))⟩

/-- `parse_chat`: parse every line, silently discarding non-matches. -/
def parse_chat (lines : List (List Char)) : List RawEvent :=
  lines.filterMap parseLine

/-- All characters of `l` are decimal digits. -/
def digits (l : List Char) : Prop := ∀ c ∈ l, c.isDigit

/-- Modelled from the spec's line grammar
`DD/MM/YYYY, HH:MM - Author: Message` (§4.1, §6): the stripped line
decomposes into two-digit day, month, four-digit year, two-digit hour and
minute, single whitespace separators, a nonempty colon-free author and a
nonempty message; `tail` is what `re.match` leaves unconsumed, which for
the greedy `(.+)` is empty or starts at a newline. -/
def line_match_spec (line : List Char) : Prop :=
  ∃ dd mm yy hh mi auth msg tail : List Char, ∃ w1 w2 w3 w4 : Char,
    pyStrip line
        = dd ++ '/' :: mm ++ '/' :: yy
            ++ (',' :: w1 :: (hh ++ ':' :: mi
              ++ (w2 :: '-' :: w3 :: (auth ++ ':' :: w4 :: (msg ++ tail))))) ∧
      dd.length = 2 ∧ digits dd ∧ mm.length = 2 ∧ digits mm ∧
      yy.length = 4 ∧ digits yy ∧ hh.length = 2 ∧ digits hh ∧
      mi.length = 2 ∧ digits mi ∧
      isPySpace w1 = true ∧ isPySpace w2 = true ∧
      isPySpace w3 = true ∧ isPySpace w4 = true ∧
      auth ≠ [] ∧ ':' ∉ auth ∧ msg ≠ [] ∧ '\n' ∉ msg ∧
      (tail = [] ∨ ∃ t, tail = '\n' :: t)

example :
    parseLine "01/02/2023, 10:30 - Alice: hello world".toList
      = some ⟨"01/02/2023".toList, "10:30".toList, "Alice".toList,
          "hello world".toList⟩ := by decide
example : parseLine "random text".toList = none := by decide
example : parseLine "01/02/2023, 10:30 - Alice hello".toList = none := by decide
example :
    parseLine "  01/02/2023, 10:30 - Bob:  hi  ".toList
      = some ⟨"01/02/2023".toList, "10:30".toList, "Bob".toList, "hi".toList⟩ := by
  decide

/-! ### Spec-side run partition

`run_split` is the second, spec-worded definition used by the refinement
claims (§4.3, §8 "Run coverage"): the full decomposition of the sequence
into maximal runs under a continuation predicate, the final in-progress
run included. -/

/-- Spec-side helper: `curRev` is the current run, reversed; on a break
the finished run is emitted and a new run starts at `c`; at the end of
the sequence the in-progress run is flushed. -/
def run_split_aux (cont : Event → Event → Bool) :
    Event → List Event → List Event → List (List Event)
  | _, curRev, [] => [curRev.reverse]
  | p, curRev, c :: rest =>
      if cont p c then run_split_aux cont c (c :: curRev) rest
      else curRev.reverse :: run_split_aux cont c [c] rest

/-- Spec-side (§8): the ordered list of maximal runs of `es` under the
continuation predicate `cont`. -/
def run_split (cont : Event → Event → Bool) : List Event → List (List Event)
  | [] => []
  | e :: rest => run_split_aux cont e [e] rest

/-- The payload `monologue_detection` stores for a run: its first
author, its length, and its start timestamp. -/
def run_payload (r : List Event) : String × Nat × Int :=
  match r.head? with
  | some e => (e.author, r.length, e.ts)
  | none => ("", 0, 0)

theorem run_split_aux_ne_nil (cont : Event → Event → Bool) :
    ∀ (rest : List Event) (p : Event) (R : List Event),
      run_split_aux cont p R rest ≠ [] := by
  intro rest
  induction rest with
  | nil => intro p R; simp [run_split_aux]
  | cons c rs ih =>
      intro p R
      rw [run_split_aux]
      by_cases h : cont p c = true
      · simpa [h] using ih c (c :: R)
      · simp [h]

theorem run_split_aux_flatten (cont : Event → Event → Bool) :
    ∀ (rest : List Event) (p : Event) (R : List Event),
      (run_split_aux cont p R rest).flatten = R.reverse ++ rest := by
  intro rest
  induction rest with
  | nil => intro p R; simp [run_split_aux]
  | cons c rs ih =>
      intro p R
      rw [run_split_aux]
      by_cases h : cont p c = true
      · simp only [h, if_true, ih c (c :: R), List.reverse_cons, List.append_assoc,
          List.cons_append, List.nil_append]
      · simp [h, ih c [c]]

/-- §8 Run coverage: the spec-side runs concatenate back to the whole
sequence (a partition with no gaps and no overlaps). -/
theorem run_split_flatten (cont : Event → Event → Bool) (es : List Event) :
    (run_split cont es).flatten = es := by
  cases es with
  | nil => rfl
  | cons e rest => simpa using run_split_aux_flatten cont rest e [e]

theorem dropLast_cons_of_ne_nil {α : Type} (a : α) {l : List α} (h : l ≠ []) :
    (a :: l).dropLast = a :: l.dropLast := by
  cases l with
  | nil => exact absurd rfl h
  | cons x xs => rfl

/-- The source's shared scan loop produces exactly the lengths of the
spec-side runs **without the final one**, filtered by the minimum-length
test — the in-progress run at end-of-sequence is dropped unevaluated. -/
theorem scan_runs_aux_eq (cont : Event → Event → Bool) (keep : Nat → Bool) :
    ∀ (rest : List Event) (p : Event) (acc : List Nat) (R : List Event),
      scan_runs_aux cont keep p R.length acc rest
        = acc ++ ((run_split_aux cont p R rest).dropLast.map List.length).filter keep := by
  intro rest
  induction rest with
  | nil => intro p acc R; simp [scan_runs_aux, run_split_aux]
  | cons c rs ih =>
      intro p acc R
      rw [scan_runs_aux, run_split_aux]
      by_cases h : cont p c = true
      · have hlen : R.length + 1 = (c :: R).length := rfl
        simp only [h, if_true, hlen, ih c acc (c :: R)]
      · have h1 : run_split_aux cont c [c] rs ≠ [] := run_split_aux_ne_nil cont rs c [c]
        have hlen : (1 : Nat) = ([c] : List Event).length := rfl
        simp only [h, if_false, Bool.false_eq_true]
        rw [hlen, ih c (acc ++ if keep R.length then [R.length] else []) [c],
          dropLast_cons_of_ne_nil _ h1]
        simp only [List.map_cons, List.length_reverse, List.filter_cons]
        by_cases hk : keep R.length = true
        · simp [hk, List.append_assoc]
        · simp [hk, List.append_assoc]

/-- `scan_runs` versus the spec-side partition, packaged at the sequence
level. -/
theorem scan_runs_eq (cont : Event → Event → Bool) (keep : Nat → Bool)
    (es : List Event) :
    scan_runs cont keep es
      = ((run_split cont es).dropLast.map List.length).filter keep := by
  cases es with
  | nil => rfl
  | cons e rest =>
      have h := scan_runs_aux_eq cont keep rest e [] [e]
      simpa [scan_runs, run_split] using h

theorem mem_of_head?_eq {α : Type} {l : List α} {a : α} (h : l.head? = some a) :
    a ∈ l := by
  cases l with
  | nil => simp at h
  | cons x xs => simp at h; simp [h]

theorem mem_of_getLast?_eq {α : Type} {l : List α} {a : α} (h : l.getLast? = some a) :
    a ∈ l := by
  rw [← List.head?_reverse] at h
  exact List.mem_reverse.mp (mem_of_head?_eq h)

/-- `monologue_detection`'s loop produces exactly the payloads of the
spec-side author-runs **without the final one**, filtered by
`current_count >= 5` — like the other scans, the in-progress run at
end-of-sequence is dropped unevaluated. -/
theorem monologues_aux_eq :
    ∀ (rest : List Event) (a : String) (startEv p : Event)
      (acc : List (String × Nat × Int)) (R : List Event),
      R ≠ [] → R.head? = some p → R.getLast? = some startEv →
      (∀ x ∈ R, x.author = a) →
      monologues_aux a R.length startEv acc rest
        = acc ++ (((run_split_aux mono_cont p R rest).dropLast).filter
            (fun r => 5 ≤ r.length)).map run_payload := by
  intro rest
  induction rest with
  | nil =>
      intro a startEv p acc R hR hhead hlast hall
      simp [monologues_aux, run_split_aux]
  | cons c rs ih =>
      intro a startEv p acc R hR hhead hlast hall
      have hpa : p.author = a := hall p (mem_of_head?_eq hhead)
      rw [monologues_aux, run_split_aux]
      by_cases hca : c.author = a
      · have hcont : mono_cont p c = true := by
          simp [mono_cont, hca, hpa]
        obtain ⟨r0, R1, rfl⟩ := List.exists_cons_of_ne_nil hR
        have hlen : (r0 :: R1).length + 1 = (c :: r0 :: R1).length := rfl
        rw [if_pos hca, hcont, if_pos rfl, hlen,
          ih a startEv c acc (c :: r0 :: R1) (by simp)
            (by simp) (by rw [List.getLast?_cons_cons]; exact hlast)
            (by intro x hx
                rcases List.mem_cons.mp hx with h1 | h1
                · rw [h1]; exact hca
                · exact hall x h1)]
      · have hcont : mono_cont p c = false := by
          simp [mono_cont, hpa]; exact hca
        have h1 : run_split_aux mono_cont c [c] rs ≠ [] :=
          run_split_aux_ne_nil mono_cont rs c [c]
        have hpay : run_payload R.reverse = (a, R.length, startEv.ts) := by
          have hsa : startEv.author = a := hall startEv (mem_of_getLast?_eq hlast)
          rw [run_payload]
          rw [List.head?_reverse, hlast]
          simp [hsa]
        have hlen1 : (1 : Nat) = ([c] : List Event).length := rfl
        rw [if_neg hca, hcont, if_neg Bool.false_ne_true, hlen1,
          ih c.author c c (acc ++ if 5 ≤ R.length then [(a, R.length, startEv.ts)] else [])
            [c] (by simp) (by simp) (by simp) (by simp),
          dropLast_cons_of_ne_nil _ h1]
        simp only [List.filter_cons, List.length_reverse]
        by_cases hk : 5 ≤ R.length
        · simp [hk, hpay, List.append_assoc]
        · simp [hk, List.append_assoc]

/-- `monologue_detection` versus the spec-side partition, packaged at the
sequence level (nonempty sequences; the empty one raises). -/
theorem monologue_detection_eq (e : Event) (rest : List Event) :
    monologue_detection (e :: rest)
      = some ((((run_split mono_cont (e :: rest)).dropLast).filter
          (fun r => 5 ≤ r.length)).map run_payload) := by
  have h := monologues_aux_eq rest e.author e e [] [e] (by simp) (by simp) (by simp)
    (by simp)
  simpa [monologue_detection, run_split] using h

/-! ### Spec-side transition samples (§4.4) -/

/-- Spec-side (§4.4): the interaction edges, phrased over the list of
consecutive-event transitions — record `(previousAuthor, currentAuthor)`
exactly when the speaker changed and the latency is strictly under 10
minutes. -/
def interaction_edges_spec (es : List Event) : List (String × String) :=
  (es.zip es.tail).filterMap fun pc =>
    if pc.2.author ≠ pc.1.author ∧ time_diff pc.1 pc.2 < 10
    then some (pc.1.author, pc.2.author) else none

/-- Spec-side (§4.4): the response-time sample — the latencies of
speaker-change transitions strictly under 60 minutes. -/
def response_sample_spec (es : List Event) : List ℚ :=
  (es.zip es.tail).filterMap fun pc =>
    if pc.2.author ≠ pc.1.author ∧ time_diff pc.1 pc.2 < 60
    then some (time_diff pc.1 pc.2) else none

/-- Spec-side (§4.4): the per-author reply-speed sample — the latencies
of speaker-change transitions strictly under 60 minutes attributed to the
current (replying) author. -/
def reply_sample_spec (a : String) (es : List Event) : List ℚ :=
  (es.zip es.tail).filterMap fun pc =>
    if pc.2.author ≠ pc.1.author ∧ time_diff pc.1 pc.2 < 60 ∧ pc.2.author = a
    then some (time_diff pc.1 pc.2) else none

theorem interactions_eq_spec : ∀ es : List Event,
    interactions es = interaction_edges_spec es
  | [] => rfl
  | [_] => rfl
  | p :: c :: rest => by
      have ih := interactions_eq_spec (c :: rest)
      rw [interactions, ih]
      rw [interaction_edges_spec, interaction_edges_spec]
      simp only [List.tail_cons, List.zip_cons_cons, List.filterMap_cons]
      by_cases h : c.author ≠ p.author ∧ time_diff p c < 10
      · simp [h]
      · simp [h]

theorem response_times_eq_spec : ∀ es : List Event,
    response_times es = response_sample_spec es
  | [] => rfl
  | [_] => rfl
  | p :: c :: rest => by
      have ih := response_times_eq_spec (c :: rest)
      rw [response_times, ih]
      rw [response_sample_spec, response_sample_spec]
      simp only [List.tail_cons, List.zip_cons_cons, List.filterMap_cons]
      by_cases h : c.author ≠ p.author ∧ time_diff p c < 60
      · simp [h]
      · simp [h]

theorem reply_times_eq_spec : ∀ (a : String) (es : List Event),
    reply_times a es = reply_sample_spec a es
  | _, [] => rfl
  | _, [_] => rfl
  | a, p :: c :: rest => by
      have ih := reply_times_eq_spec a (c :: rest)
      rw [reply_times, ih]
      rw [reply_sample_spec, reply_sample_spec]
      simp only [List.tail_cons, List.zip_cons_cons, List.filterMap_cons]
      by_cases h : c.author ≠ p.author ∧ time_diff p c < 60 ∧ c.author = a
      · rw [if_pos h, if_pos h]; simp
      · rw [if_neg h, if_neg h]; simp

/-- An author with at least one reply sample has sent a message. -/
theorem reply_times_ne_nil_mem : ∀ (a : String) (es : List Event),
    reply_times a es ≠ [] → a ∈ es.map Event.author
  | _, [] => by intro h; simp [reply_times] at h
  | _, [_] => by intro h; simp [reply_times] at h
  | a, p :: c :: rest => by
      intro h
      rw [reply_times] at h
      by_cases hc : c.author ≠ p.author ∧ time_diff p c < 60 ∧ c.author = a
      · simp only [List.map_cons, List.mem_cons]
        exact Or.inr (Or.inl hc.2.2.symm)
      · rw [if_neg hc, List.nil_append] at h
        have hmem := reply_times_ne_nil_mem a (c :: rest) h
        simp only [List.map_cons, List.mem_cons] at hmem ⊢
        exact Or.inr hmem

theorem mem_uniqueFirstAux {α : Type} [DecidableEq α] :
    ∀ (l seen : List α) (a : α), a ∈ uniqueFirstAux seen l ↔ a ∈ l ∧ a ∉ seen := by
  intro l
  induction l with
  | nil => intro seen a; simp [uniqueFirstAux]
  | cons b l ih =>
      intro seen a
      rw [uniqueFirstAux]
      by_cases hb : b ∈ seen
      · rw [if_pos hb, ih]
        constructor
        · rintro ⟨h1, h2⟩; exact ⟨List.mem_cons_of_mem _ h1, h2⟩
        · rintro ⟨h1, h2⟩
          rcases List.mem_cons.mp h1 with h3 | h3
          · exact absurd (h3 ▸ hb) h2
          · exact ⟨h3, h2⟩
      · rw [if_neg hb]
        simp only [List.mem_cons, ih]
        constructor
        · rintro (rfl | ⟨h1, h2⟩)
          · exact ⟨Or.inl rfl, hb⟩
          · exact ⟨Or.inr h1, fun hs => h2 (Or.inr hs)⟩
        · rintro ⟨rfl | h1, h2⟩
          · exact Or.inl rfl
          · by_cases hab : a = b
            · exact Or.inl hab
            · exact Or.inr ⟨h1, by simp [hab, h2]⟩

theorem mem_uniqueFirst {α : Type} [DecidableEq α] (l : List α) (a : α) :
    a ∈ uniqueFirst l ↔ a ∈ l := by
  simp [uniqueFirst, mem_uniqueFirstAux]

/-- Membership in `avg_reply`: exactly the authors with strictly more
than 5 qualifying samples, paired with the mean of those samples. -/
theorem mem_avg_reply (es : List Event) (a : String) (q : ℚ) :
    (a, q) ∈ avg_reply es
      ↔ 5 < (reply_times a es).length
          ∧ q = (reply_times a es).sum / ((reply_times a es).length : ℚ) := by
  rw [avg_reply, List.Perm.mem_iff (List.perm_insertionSort _ _), List.mem_filterMap]
  constructor
  · rintro ⟨b, _, hfb⟩
    by_cases h : 5 < (reply_times b es).length
    · rw [if_pos h] at hfb
      obtain ⟨rfl, rfl⟩ := Prod.mk.injEq .. ▸ Option.some.inj hfb
      exact ⟨h, rfl⟩
    · rw [if_neg h] at hfb
      cases hfb
  · rintro ⟨h5, hq⟩
    refine ⟨a, ?_, ?_⟩
    · rw [mem_uniqueFirst]
      exact reply_times_ne_nil_mem a es
        (List.ne_nil_of_length_pos (Nat.lt_of_lt_of_le (by norm_num) (Nat.le_of_lt h5)))
    · rw [if_pos h5, hq]

/-! ### Response-rate bounds (§4.4) -/

theorem author_messages_cons (a : String) (p : Event) (rest : List Event) :
    author_messages a (p :: rest)
      = (if p.author = a then 1 else 0) + author_messages a rest := by
  simp only [author_messages, List.filter_cons]
  by_cases h : p.author = a
  · simp [h, Nat.add_comm]
  · simp [h]

theorem author_responses_le_tail : ∀ (a : String) (p : Event) (rest : List Event),
    author_responses a (p :: rest) ≤ author_messages a rest
  | a, p, [] => by simp [author_responses, author_messages]
  | a, p, c :: rs => by
      rw [author_responses, author_messages_cons a c rs]
      refine Nat.add_le_add ?_ (author_responses_le_tail a c rs)
      by_cases h : c.author = a ∧ c.author ≠ p.author ∧ time_diff p c < 15
      · rw [if_pos h, if_pos h.1]
      · rw [if_neg h]
        exact Nat.zero_le _

/-- Every credited response is one of the author's own messages: the
response count never exceeds the message count. -/
theorem author_responses_le (a : String) (es : List Event) :
    author_responses a es ≤ author_messages a es := by
  cases es with
  | nil => exact Nat.le_refl 0
  | cons p rest =>
      refine Nat.le_trans (author_responses_le_tail a p rest) ?_
      rw [author_messages_cons]
      exact Nat.le_add_left _ _

/-! ### Parser characterization lemmas -/

theorem digits_iff_all (l : List Char) : digits l ↔ l.all Char.isDigit = true := by
  rw [List.all_eq_true]; rfl

theorem takeCount_eq_some {n : Nat} {p : Char → Bool} {s a r : List Char} :
    takeCount n p s = some (a, r)
      ↔ s = a ++ r ∧ a.length = n ∧ a.all p = true := by
  unfold takeCount
  split
  case isTrue h =>
    simp only [Option.some.injEq, Prod.mk.injEq]
    constructor
    · rintro ⟨rfl, rfl⟩
      exact ⟨(List.take_append_drop n s).symm, h.1, h.2⟩
    · rintro ⟨rfl, rfl, hall⟩
      exact ⟨List.take_left a r, List.drop_left a r⟩
  case isFalse h =>
    constructor
    · intro h1; exact absurd h1 (by simp)
    · rintro ⟨rfl, rfl, hall⟩
      exact absurd ⟨by rw [List.take_left], by rw [List.take_left]; exact hall⟩ h

theorem expectChar_eq_some {ch : Char} {s r : List Char} :
    expectChar ch s = some r ↔ s = ch :: r := by
  cases s with
  | nil => simp [expectChar]
  | cons c rest =>
      rw [expectChar]
      by_cases h : c = ch
      · simp [h]
      · simp [h, Ne.symm h]

theorem expectSpace_eq_some {s r : List Char} :
    expectSpace s = some r ↔ ∃ w, s = w :: r ∧ isPySpace w = true := by
  cases s with
  | nil => simp [expectSpace]
  | cons c rest =>
      rw [expectSpace]
      by_cases h : isPySpace c = true
      · simp only [h, if_true, Option.some.injEq, List.cons.injEq]
        constructor
        · rintro rfl; exact ⟨c, ⟨rfl, rfl⟩, h⟩
        · rintro ⟨w, ⟨rfl, rfl⟩, _⟩; rfl
      · simp only [h, if_false, Bool.false_eq_true]
        constructor
        · intro h1; exact absurd h1 (by simp)
        · rintro ⟨w, ⟨rfl, rfl⟩, hw⟩; exact absurd hw h

theorem takeWhile_append_cons {p : Char → Bool} {a r : List Char} {x : Char}
    (hall : ∀ c ∈ a, p c = true) (hx : p x = false) :
    (a ++ x :: r).takeWhile p = a ∧ (a ++ x :: r).dropWhile p = x :: r := by
  induction a with
  | nil => simp [List.takeWhile, List.dropWhile, hx]
  | cons b bs ih =>
      have hb : p b = true := hall b (List.mem_cons_self b bs)
      have ih2 := ih (fun c hc => hall c (List.mem_cons_of_mem b hc))
      simp only [List.cons_append, List.takeWhile_cons, List.dropWhile_cons, hb, if_true]
      exact ⟨by rw [ih2.1], by rw [ih2.2]⟩

theorem takeWhile_all {p : Char → Bool} {a : List Char}
    (hall : ∀ c ∈ a, p c = true) : a.takeWhile p = a := by
  induction a with
  | nil => rfl
  | cons b bs ih =>
      have hb : p b = true := hall b (List.mem_cons_self b bs)
      simp only [List.takeWhile_cons, hb, if_true]
      rw [ih (fun c hc => hall c (List.mem_cons_of_mem b hc))]

theorem mem_takeWhile_pred {p : Char → Bool} :
    ∀ {l : List Char} {c : Char}, c ∈ l.takeWhile p → p c = true := by
  intro l
  induction l with
  | nil => intro c hc; simp [List.takeWhile] at hc
  | cons b bs ih =>
      intro c hc
      rw [List.takeWhile_cons] at hc
      by_cases hb : p b = true
      · rw [hb, if_pos rfl] at hc
        rcases List.mem_cons.mp hc with rfl | h1
        · exact hb
        · exact ih h1

      · simp [hb] at hc

theorem dropWhile_head_not {p : Char → Bool} :
    ∀ {l : List Char} {x : Char} {r : List Char},
      l.dropWhile p = x :: r → p x = false := by
  intro l
  induction l with
  | nil => intro x r h; simp [List.dropWhile] at h
  | cons b bs ih =>
      intro x r h
      rw [List.dropWhile_cons] at h
      by_cases hb : p b = true
      · rw [hb, if_pos rfl] at h
        exact ih h
      · rw [if_neg (by simp [hb])] at h
        cases h
        simpa using hb

theorem bind_eq_some_iff {α β : Type} {x : Option α} {f : α → Option β} {b : β} :
    (x >>= f) = some b ↔ ∃ a, x = some a ∧ f a = some b := Option.bind_eq_some

theorem expectChar_cons (ch : Char) (r : List Char) :
    expectChar ch (ch :: r) = some r := by simp [expectChar]

theorem expectSpace_cons {w : Char} (r : List Char) (h : isPySpace w = true) :
    expectSpace (w :: r) = some r := by simp [expectSpace, h]

theorem parseDate_eq_some {s d r : List Char} :
    parseDate s = some (d, r)
      ↔ ∃ dd mm yy : List Char,
          s = dd ++ '/' :: mm ++ '/' :: yy ++ r
          ∧ d = dd ++ '/' :: mm ++ '/' :: yy
          ∧ dd.length = 2 ∧ dd.all Char.isDigit = true
          ∧ mm.length = 2 ∧ mm.all Char.isDigit = true
          ∧ yy.length = 4 ∧ yy.all Char.isDigit = true := by
  simp only [parseDate, bind_eq_some_iff, Option.pure_def, Option.some.injEq,
    Prod.exists, Prod.mk.injEq, takeCount_eq_some, expectChar_eq_some]
  constructor
  · rintro ⟨dd, s1, ⟨rfl, hdd2, hddall⟩, s2, rfl, mm, s3, ⟨rfl, hmm2, hmmall⟩,
      s4, rfl, yy, s5, ⟨rfl, hyy4, hyyall⟩, hd, rfl⟩
    exact ⟨dd, mm, yy, by simp, hd.symm, hdd2, hddall, hmm2, hmmall, hyy4, hyyall⟩
  · rintro ⟨dd, mm, yy, rfl, rfl, hdd2, hddall, hmm2, hmmall, hyy4, hyyall⟩
    exact ⟨dd, '/' :: mm ++ '/' :: yy ++ r, ⟨by simp, hdd2, hddall⟩,
      mm ++ '/' :: yy ++ r, rfl, mm, '/' :: yy ++ r, ⟨by simp, hmm2, hmmall⟩,
      yy ++ r, rfl, yy, r, ⟨rfl, hyy4, hyyall⟩, rfl, rfl⟩

theorem parseTime_eq_some {s t r : List Char} :
    parseTime s = some (t, r)
      ↔ ∃ hh mi : List Char,
          s = hh ++ ':' :: mi ++ r
          ∧ t = hh ++ ':' :: mi
          ∧ hh.length = 2 ∧ hh.all Char.isDigit = true
          ∧ mi.length = 2 ∧ mi.all Char.isDigit = true := by
  simp only [parseTime, bind_eq_some_iff, Option.pure_def, Option.some.injEq,
    Prod.exists, Prod.mk.injEq, takeCount_eq_some, expectChar_eq_some]
  constructor
  · rintro ⟨hh, s1, ⟨rfl, hh2, hhall⟩, s2, rfl, mi, s3, ⟨rfl, hmi2, hmiall⟩, ht, rfl⟩
    exact ⟨hh, mi, by simp, ht.symm, hh2, hhall, hmi2, hmiall⟩
  · rintro ⟨hh, mi, rfl, rfl, hh2, hhall, hmi2, hmiall⟩
    exact ⟨hh, ':' :: mi ++ r, ⟨by simp, hh2, hhall⟩,
      mi ++ r, rfl, mi, r, ⟨rfl, hmi2, hmiall⟩, rfl, rfl⟩

theorem parseAuthor_eq_some {s auth r : List Char} :
    parseAuthor s = some (auth, r)
      ↔ s = auth ++ ':' :: r ∧ auth ≠ [] ∧ ':' ∉ auth := by
  constructor
  · intro h
    rw [parseAuthor] at h
    by_cases hnil : s.takeWhile (fun c => c != ':') = []
    · rw [if_pos hnil] at h; cases h
    · rw [if_neg hnil] at h
      cases hdw : expectChar ':' (s.dropWhile (fun c => c != ':')) with
      | none => rw [hdw] at h; cases h
      | some rest =>
          rw [hdw] at h
          obtain ⟨rfl, rfl⟩ := Prod.mk.injEq .. ▸ Option.some.inj h
          have hsplit := List.takeWhile_append_dropWhile
            (p := fun c => c != ':') (l := s)
          rw [expectChar_eq_some] at hdw
          rw [hdw] at hsplit
          refine ⟨hsplit.symm, hnil, fun hc => ?_⟩
          have := mem_takeWhile_pred hc
          simp at this
  · rintro ⟨rfl, hne, hnc⟩
    have hall : ∀ c ∈ auth, (c != ':') = true := by
      intro c hc
      simp only [bne_iff_ne, ne_eq]
      exact fun h => hnc (h ▸ hc)
    have hx : ((':' : Char) != ':') = false := by simp
    have htd := takeWhile_append_cons (a := auth) (r := r) hall hx
    rw [parseAuthor, htd.1, htd.2, if_neg hne, expectChar_cons]

/-- Soundness of the parser: a successful parse exhibits the grammar
decomposition of the stripped line and determines every field of the
event. -/
theorem parseLine_decomp {line : List Char} {e : RawEvent}
    (h : parseLine line = some e) :
    ∃ dd mm yy hh mi auth msg tail : List Char, ∃ w1 w2 w3 w4 : Char,
      pyStrip line
          = dd ++ '/' :: mm ++ '/' :: yy
              ++ (',' :: w1 :: (hh ++ ':' :: mi
                ++ (w2 :: '-' :: w3 :: (auth ++ ':' :: w4 :: (msg ++ tail)))))
        ∧ dd.length = 2 ∧ digits dd ∧ mm.length = 2 ∧ digits mm
        ∧ yy.length = 4 ∧ digits yy ∧ hh.length = 2 ∧ digits hh
        ∧ mi.length = 2 ∧ digits mi
        ∧ isPySpace w1 = true ∧ isPySpace w2 = true
        ∧ isPySpace w3 = true ∧ isPySpace w4 = true
        ∧ auth ≠ [] ∧ ':' ∉ auth ∧ msg ≠ [] ∧ '\n' ∉ msg
        ∧ (tail = [] ∨ ∃ t, tail = '\n' :: t)
        ∧ e = ⟨dd ++ '/' :: mm ++ '/' :: yy, hh ++ ':' :: mi,
            pyStrip auth, pyStrip msg⟩ := by
  simp only [parseLine, bind_eq_some_iff, Prod.exists] at h
  obtain ⟨date, s1, hdate, s2, hs2, s3, hs3, time, s4, htime, s5, hs5, s6, hs6,
    s7, hs7, auth, s8, hauth, s9, hs9, hfin⟩ := h
  rw [parseDate_eq_some] at hdate
  obtain ⟨dd, mm, yy, h0, rfl, hdd2, hddall, hmm2, hmmall, hyy4, hyyall⟩ := hdate
  rw [expectChar_eq_some] at hs2
  subst hs2
  rw [expectSpace_eq_some] at hs3
  obtain ⟨w1, rfl, hw1⟩ := hs3
  rw [parseTime_eq_some] at htime
  obtain ⟨hh, mi, rfl, rfl, hhh2, hhhall, hmi2, hmiall⟩ := htime
  rw [expectSpace_eq_some] at hs5
  obtain ⟨w2, rfl, hw2⟩ := hs5
  rw [expectChar_eq_some] at hs6
  subst hs6
  rw [expectSpace_eq_some] at hs7
  obtain ⟨w3, rfl, hw3⟩ := hs7
  rw [parseAuthor_eq_some] at hauth
  obtain ⟨rfl, hane, hanc⟩ := hauth
  rw [expectSpace_eq_some] at hs9
  obtain ⟨w4, rfl, hw4⟩ := hs9
  by_cases hmsg : s9.takeWhile (fun c => c != '\n') = []
  · rw [if_pos hmsg] at hfin; cases hfin
  · rw [if_neg hmsg] at hfin
    have he := (Option.some.inj hfin).symm
    have hsplit9 : s9 = s9.takeWhile (fun c => c != '\n')
        ++ s9.dropWhile (fun c => c != '\n') :=
      (List.takeWhile_append_dropWhile (p := fun c => c != '\n') (l := s9)).symm
    rw [hsplit9] at h0
    refine ⟨dd, mm, yy, hh, mi, auth, s9.takeWhile (fun c => c != '\n'),
      s9.dropWhile (fun c => c != '\n'), w1, w2, w3, w4, h0,
      hdd2, (digits_iff_all dd).mpr hddall, hmm2, (digits_iff_all mm).mpr hmmall,
      hyy4, (digits_iff_all yy).mpr hyyall, hhh2, (digits_iff_all hh).mpr hhhall,
      hmi2, (digits_iff_all mi).mpr hmiall, hw1, hw2, hw3, hw4,
      hane, hanc, hmsg, ?_, ?_, he⟩
    · intro hc
      have := mem_takeWhile_pred hc
      simp at this
    · cases htl : s9.dropWhile (fun c => c != '\n') with
      | nil => exact Or.inl rfl
      | cons x xs =>
          have hx := dropWhile_head_not htl
          simp only [bne_eq_false_iff_eq] at hx
          exact Or.inr ⟨xs, by rw [hx] at htl ⊢⟩

/-- Completeness of the parser: every grammar decomposition of the
stripped line yields exactly the expected parse. -/
theorem parseLine_complete {line : List Char}
    {dd mm yy hh mi auth msg tail : List Char} {w1 w2 w3 w4 : Char}
    (h0 : pyStrip line
        = dd ++ '/' :: mm ++ '/' :: yy
            ++ (',' :: w1 :: (hh ++ ':' :: mi
              ++ (w2 :: '-' :: w3 :: (auth ++ ':' :: w4 :: (msg ++ tail))))))
    (hdd2 : dd.length = 2) (hddd : digits dd)
    (hmm2 : mm.length = 2) (hmmd : digits mm)
    (hyy4 : yy.length = 4) (hyyd : digits yy)
    (hhh2 : hh.length = 2) (hhhd : digits hh)
    (hmi2 : mi.length = 2) (hmid : digits mi)
    (hw1 : isPySpace w1 = true) (hw2 : isPySpace w2 = true)
    (hw3 : isPySpace w3 = true) (hw4 : isPySpace w4 = true)
    (hane : auth ≠ []) (hanc : ':' ∉ auth)
    (hmne : msg ≠ []) (hmnn : '\n' ∉ msg)
    (htail : tail = [] ∨ ∃ t, tail = '\n' :: t) :
    parseLine line
      = some ⟨dd ++ '/' :: mm ++ '/' :: yy, hh ++ ':' :: mi,
          pyStrip auth, pyStrip msg⟩ := by
  have hmall : ∀ c ∈ msg, (c != '\n') = true := by
    intro c hc
    simp only [bne_iff_ne, ne_eq]
    exact fun hcn => hmnn (hcn ▸ hc)
  have hmsgtw : (msg ++ tail).takeWhile (fun c => c != '\n') = msg := by
    rcases htail with rfl | ⟨t, rfl⟩
    · rw [List.append_nil]; exact takeWhile_all hmall
    · exact (takeWhile_append_cons hmall (by simp)).1
  simp only [parseLine, bind_eq_some_iff, Prod.exists]
  refine ⟨_, _,
    parseDate_eq_some.mpr ⟨dd, mm, yy, h0, rfl, hdd2, (digits_iff_all dd).mp hddd,
      hmm2, (digits_iff_all mm).mp hmmd, hyy4, (digits_iff_all yy).mp hyyd⟩,
    _, expectChar_cons _ _,
    _, expectSpace_cons _ hw1,
    _, _,
    parseTime_eq_some.mpr ⟨hh, mi, rfl, rfl, hhh2, (digits_iff_all hh).mp hhhd,
      hmi2, (digits_iff_all mi).mp hmid⟩,
    _, expectSpace_cons _ hw2,
    _, expectChar_cons _ _,
    _, expectSpace_cons _ hw3,
    _, _, parseAuthor_eq_some.mpr ⟨rfl, hane, hanc⟩,
    _, expectSpace_cons _ hw4, ?_⟩
  rw [hmsgtw, if_neg hmne]

/-- A successful parse happens exactly on the lines of the grammar. -/
theorem parseLine_some_iff (line : List Char) :
    (∃ e, parseLine line = some e) ↔ line_match_spec line := by
  constructor
  · rintro ⟨e, he⟩
    obtain ⟨dd, mm, yy, hh, mi, auth, msg, tail, w1, w2, w3, w4, h0, h1, h2, h3,
      h4, h5, h6, h7, h8, h9, h10, h11, h12, h13, h14, h15, h16, h17, h18, h19, _⟩ :=
      parseLine_decomp he
    exact ⟨dd, mm, yy, hh, mi, auth, msg, tail, w1, w2, w3, w4, h0, h1, h2, h3,
      h4, h5, h6, h7, h8, h9, h10, h11, h12, h13, h14, h15, h16, h17, h18, h19⟩
  · rintro ⟨dd, mm, yy, hh, mi, auth, msg, tail, w1, w2, w3, w4, h0, h1, h2, h3,
      h4, h5, h6, h7, h8, h9, h10, h11, h12, h13, h14, h15, h16, h17, h18, h19⟩
    exact ⟨_, parseLine_complete h0 h1 h2 h3 h4 h5 h6 h7 h8 h9 h10 h11 h12 h13
      h14 h15 h16 h17 h18 h19⟩

theorem mem_pyStrip {l : List Char} {c : Char} (h : c ∈ pyStrip l) : c ∈ l := by
  rw [pyStrip] at h
  have h1 := (List.dropWhile_sublist (l := (l.dropWhile isPySpace).reverse)
    (p := isPySpace)).subset (List.mem_reverse.mp h)
  exact (List.dropWhile_sublist (l := l) (p := isPySpace)).subset
    (List.mem_reverse.mp h1)

theorem mem_dropWhile_of_not {p : Char → Bool} :
    ∀ {l : List Char} {c : Char}, c ∈ l → p c = false → c ∈ l.dropWhile p := by
  intro l
  induction l with
  | nil => intro c hc _; simp at hc
  | cons b bs ih =>
      intro c hc hpc
      rw [List.dropWhile_cons]
      by_cases hb : p b = true
      · rw [if_pos hb]
        rcases List.mem_cons.mp hc with rfl | h1
        · rw [hb] at hpc; cases hpc
        · exact ih h1 hpc
      · rw [if_neg hb]
        exact hc

theorem pyStrip_ne_nil {l : List Char} {c : Char} (hc : c ∈ l)
    (hp : isPySpace c = false) : pyStrip l ≠ [] := by
  rw [pyStrip]
  have h1 := mem_dropWhile_of_not hc hp
  have h2 := List.mem_reverse.mpr h1
  have h3 := mem_dropWhile_of_not h2 hp
  exact List.ne_nil_of_mem (List.mem_reverse.mpr h3)

theorem getLast?_append_right {l1 l2 : List Char} (h : l2 ≠ []) :
    (l1 ++ l2).getLast? = l2.getLast? := by
  rw [← List.head?_reverse, List.reverse_append, ← List.head?_reverse]
  cases hl : l2.reverse with
  | nil => exact absurd (by simpa using congrArg List.reverse hl) h
  | cons x xs => simp

theorem pyStrip_getLast_not_space {l : List Char} {x : Char}
    (h : (pyStrip l).getLast? = some x) : isPySpace x = false := by
  rw [pyStrip, ← List.head?_reverse, List.reverse_reverse] at h
  cases htl : ((l.dropWhile isPySpace).reverse).dropWhile isPySpace with
  | nil => rw [htl] at h; cases h
  | cons y ys =>
      rw [htl] at h
      simp only [List.head?_cons, Option.some.injEq] at h
      exact h ▸ dropWhile_head_not htl

theorem streak_loop_nil (prev : Int) (cur maxS : Nat) (endD : Int) :
    streak_loop prev cur maxS endD [] = (maxS, endD) := rfl

theorem streak_loop_cons (prev : Int) (cur maxS : Nat) (endD d : Int)
    (rest : List Int) :
    streak_loop prev cur maxS endD (d :: rest)
      = if d - prev = 1 then
          if cur + 1 > maxS then streak_loop d (cur + 1) (cur + 1) d rest
          else streak_loop d (cur + 1) maxS endD rest
        else streak_loop d 1 maxS endD rest := rfl

/-! ### Claim theorems -/

/-- C1, counterexample: two events one minute apart form a single
candidate run of length 2 that ends at the last event and passes the
burst minimum (length ≥ 2), yet `conversation_length_analysis` reports no
burst — the final in-progress run is never evaluated. -/
theorem c1_counterexample :
    bursts [⟨0, "A"⟩, ⟨60, "B"⟩] = []
      ∧ run_split burst_cont [⟨0, "A"⟩, ⟨60, "B"⟩]
          = [[⟨0, "A"⟩, ⟨60, "B"⟩]] := by
  exact ⟨by decide, by decide⟩

/-- C1 (amended): the spec-side maximal runs do partition the whole
sequence, but every scan of the source (bursts, chains, monologues)
produces exactly the runs **excluding the final in-progress one**,
filtered by the minimum-length test; a qualifying run that ends at the
last event of the sequence therefore never appears in the result. -/
theorem c1_scan_drops_final_run :
    (∀ (cont : Event → Event → Bool) (es : List Event),
      (run_split cont es).flatten = es)
    ∧ (∀ (cont : Event → Event → Bool) (keep : Nat → Bool) (es : List Event),
      scan_runs cont keep es
        = ((run_split cont es).dropLast.map List.length).filter keep)
    ∧ (∀ (e : Event) (rest : List Event),
      monologue_detection (e :: rest)
        = some ((((run_split mono_cont (e :: rest)).dropLast).filter
            (fun r => 5 ≤ r.length)).map run_payload)) :=
  ⟨run_split_flatten, scan_runs_eq, monologue_detection_eq⟩

/-- C2, counterexample: on the empty sequence, `streak_analysis`
(`dates[0]`) and `monologue_detection` (`iloc[0]`) hit an index error —
modelled as `none` — instead of returning an empty result. -/
theorem c2_counterexample :
    streak_analysis [] = none ∧ monologue_detection [] = none :=
  ⟨rfl, rfl⟩

/-- C2 (amended): for a single-event sequence every cited analysis
degrades to an empty or zero result without error — except that the
streak analysis reports a streak of length 1 (not an empty result); for
the empty sequence the pair scans all return empty results, but streak
analysis and monologue detection fail with an index error (`none`). -/
theorem c2_small_sequences :
    (∀ e : Event,
      bursts [e] = [] ∧ chain_lengths [e] = []
        ∧ monologue_detection [e] = some []
        ∧ interactions [e] = [] ∧ response_times [e] = []
        ∧ response_time_median [e] = none
        ∧ (∀ a : String, author_responses a [e] = 0)
        ∧ streak_analysis [e] = some (1, date_only e))
    ∧ bursts [] = [] ∧ chain_lengths [] = [] ∧ interactions [] = []
    ∧ response_times [] = [] ∧ response_time_median [] = none
    ∧ (∀ a : String, author_messages a [] = 0 ∧ author_responses a [] = 0)
    ∧ streak_analysis [] = none ∧ monologue_detection [] = none := by
  refine ⟨fun e => ⟨rfl, rfl, rfl, rfl, rfl, rfl, fun a => rfl, ?_⟩,
    rfl, rfl, rfl, rfl, rfl, fun a => ⟨rfl, rfl⟩, rfl, rfl⟩
  have h1 : sorted_dates [e] = [date_only e] := by
    simp [sorted_dates]
  rw [streak_analysis, h1]
  rfl

/-- C3: the day streak is a function of the sorted distinct calendar
dates alone (duplicate events on a day cannot change it), and on every
sequence whose distinct date set is `{D, D+1, D+2, D+5, D+6}` the
longest streak is 3, ending at `D+2`. -/
theorem c3_streak_distinct_dates :
    (∀ es1 es2 : List Event, sorted_dates es1 = sorted_dates es2 →
      streak_analysis es1 = streak_analysis es2)
    ∧ (∀ (es : List Event) (D : Int),
      sorted_dates es = [D, D + 1, D + 2, D + 5, D + 6] →
      streak_analysis es = some (3, D + 2)) := by
  constructor
  · intro es1 es2 h
    rw [streak_analysis, streak_analysis, h]
  · intro es D h
    rw [streak_analysis, h]
    show some (streak_loop D 1 1 D [D + 1, D + 2, D + 5, D + 6]) = some (3, D + 2)
    rw [streak_loop_cons, if_pos (show D + 1 - D = 1 by ring),
      if_pos (show 1 + 1 > 1 by norm_num)]
    rw [streak_loop_cons, if_pos (show D + 2 - (D + 1) = 1 by ring),
      if_pos (show 1 + 1 + 1 > 1 + 1 by norm_num)]
    rw [streak_loop_cons, if_neg (show ¬(D + 5 - (D + 2) = 1) by omega)]
    rw [streak_loop_cons, if_pos (show D + 6 - (D + 5) = 1 by ring),
      if_neg (show ¬(1 + 1 > 1 + 1 + 1) by norm_num)]
    rw [streak_loop_nil]

/-- C3, witness: a concrete five-day date set `{0,1,2,5,6}`, once
without and once with a duplicate event on day 0; the streak is 3 ending
on day 2 in both. -/
theorem c3_streak_witness :
    sorted_dates [⟨0, "A"⟩, ⟨86400, "A"⟩, ⟨172800, "A"⟩, ⟨432000, "A"⟩, ⟨518400, "A"⟩]
        = sorted_dates [⟨0, "A"⟩, ⟨60, "B"⟩, ⟨86400, "A"⟩, ⟨172800, "A"⟩,
            ⟨432000, "A"⟩, ⟨518400, "A"⟩]
      ∧ streak_analysis [⟨0, "A"⟩, ⟨86400, "A"⟩, ⟨172800, "A"⟩, ⟨432000, "A"⟩, ⟨518400, "A"⟩]
          = streak_analysis [⟨0, "A"⟩, ⟨60, "B"⟩, ⟨86400, "A"⟩, ⟨172800, "A"⟩,
              ⟨432000, "A"⟩, ⟨518400, "A"⟩]
      ∧ sorted_dates [⟨0, "A"⟩, ⟨86400, "A"⟩, ⟨172800, "A"⟩, ⟨432000, "A"⟩, ⟨518400, "A"⟩]
          = [0, 0 + 1, 0 + 2, 0 + 5, 0 + 6]
      ∧ streak_analysis [⟨0, "A"⟩, ⟨86400, "A"⟩, ⟨172800, "A"⟩, ⟨432000, "A"⟩, ⟨518400, "A"⟩]
          = some (3, 0 + 2) :=
  ⟨by decide, c3_streak_distinct_dates.1 _ _ (by decide), by decide,
    c3_streak_distinct_dates.2 _ 0 (by decide)⟩

/-- C4: the interaction edges are exactly the ordered pairs
`(previousAuthor, currentAuthor)` of speaker-change transitions with
latency strictly under 10 minutes, counted by exact ordered identity;
on `[(t=0,A),(t=3,B),(t=12,B),(t=14,A)]` (times in minutes) the result
is one edge A→B and one edge B→A, the same-author pair skipped. -/
theorem c4_interaction_edges :
    (∀ es : List Event, interactions es = interaction_edges_spec es)
    ∧ interactions [⟨0, "A"⟩, ⟨180, "B"⟩, ⟨720, "B"⟩, ⟨840, "A"⟩]
        = [("A", "B"), ("B", "A")]
    ∧ (interactions [⟨0, "A"⟩, ⟨180, "B"⟩, ⟨720, "B"⟩, ⟨840, "A"⟩]).count ("A", "B") = 1
    ∧ (interactions [⟨0, "A"⟩, ⟨180, "B"⟩, ⟨720, "B"⟩, ⟨840, "A"⟩]).count ("B", "A") = 1 :=
  ⟨interactions_eq_spec, by decide, by decide, by decide⟩

/-- C5: the response-time sample is exactly the set of speaker-change
latencies strictly under 60 minutes (61-minute transitions contribute
nothing), and the reported median of a nonempty sample of size n is the
element at index n/2 of the sorted sample; for the even-sized concrete
sample [1,3,4,10] the median is 4 — the element after the midpoint, not
the average 3.5 of the two middle values. -/
theorem c5_response_time_median :
    (∀ es : List Event, response_times es = response_sample_spec es)
    ∧ (∀ es : List Event, response_times es ≠ [] →
        ∃ l : List ℚ, l.Perm (response_times es) ∧ l.Sorted (· ≤ ·)
          ∧ response_time_median es
              = some (l.getD ((response_times es).length / 2) 0))
    ∧ response_times [⟨0, "A"⟩, ⟨60, "B"⟩, ⟨240, "A"⟩, ⟨480, "B"⟩, ⟨1080, "A"⟩]
        = [1, 3, 4, 10]
    ∧ response_time_median [⟨0, "A"⟩, ⟨60, "B"⟩, ⟨240, "A"⟩, ⟨480, "B"⟩, ⟨1080, "A"⟩]
        = some 4
    ∧ response_times [⟨0, "A"⟩, ⟨3660, "B"⟩] = [] := by
  refine ⟨response_times_eq_spec, ?_, by decide, by decide, by decide⟩
  intro es h
  refine ⟨(response_times es).insertionSort (· ≤ ·),
    List.perm_insertionSort _ _, List.sorted_insertionSort _ _, ?_⟩
  cases hrt : response_times es with
  | nil => exact absurd hrt h
  | cons x xs =>
      rw [response_time_median, hrt]

/-- C5, witness: the median clause applied to the concrete sequence with
sample [1,3,4,10]. -/
theorem c5_response_time_median_witness :
    response_times [⟨0, "A"⟩, ⟨60, "B"⟩, ⟨240, "A"⟩, ⟨480, "B"⟩, ⟨1080, "A"⟩] ≠ []
      ∧ ∃ l : List ℚ,
          l.Perm (response_times [⟨0, "A"⟩, ⟨60, "B"⟩, ⟨240, "A"⟩, ⟨480, "B"⟩, ⟨1080, "A"⟩])
          ∧ l.Sorted (· ≤ ·)
          ∧ response_time_median [⟨0, "A"⟩, ⟨60, "B"⟩, ⟨240, "A"⟩, ⟨480, "B"⟩, ⟨1080, "A"⟩]
              = some (l.getD
                  ((response_times [⟨0, "A"⟩, ⟨60, "B"⟩, ⟨240, "A"⟩, ⟨480, "B"⟩, ⟨1080, "A"⟩]).length / 2) 0) :=
  ⟨by decide, c5_response_time_median.2.1 _ (by decide)⟩

/-- C6: at any point of the burst scan a 300-second (exactly 5 minute)
gap takes the break branch — the current run is closed and evaluated and
a new one starts — while a 299-second (4 min 59 s) gap takes the
continuation branch, both in the source loop and in the spec-side
partition; concretely, two events 4:59 apart followed by a break yield
the burst [2], while 5:00 apart they yield none. -/
theorem c6_burst_threshold :
    (∀ (p c : Event) (cur : Nat) (acc : List Nat) (rest : List Event),
      c.ts - p.ts = 300 →
      scan_runs_aux burst_cont (fun n => 1 < n) p cur acc (c :: rest)
        = scan_runs_aux burst_cont (fun n => 1 < n) c 1
            (acc ++ if 1 < cur then [cur] else []) rest)
    ∧ (∀ (p c : Event) (cur : Nat) (acc : List Nat) (rest : List Event),
      c.ts - p.ts = 299 →
      scan_runs_aux burst_cont (fun n => 1 < n) p cur acc (c :: rest)
        = scan_runs_aux burst_cont (fun n => 1 < n) c (cur + 1) acc rest)
    ∧ (∀ (p c : Event) (R rest : List Event),
      c.ts - p.ts = 300 →
      run_split_aux burst_cont p R (c :: rest)
        = R.reverse :: run_split_aux burst_cont c [c] rest)
    ∧ (∀ (p c : Event) (R rest : List Event),
      c.ts - p.ts = 299 →
      run_split_aux burst_cont p R (c :: rest)
        = run_split_aux burst_cont c (c :: R) rest)
    ∧ bursts [⟨0, "A"⟩, ⟨300, "A"⟩, ⟨100000, "A"⟩] = []
    ∧ bursts [⟨0, "A"⟩, ⟨299, "A"⟩, ⟨100000, "A"⟩] = [2] := by
  have h300 : ∀ p c : Event, c.ts - p.ts = 300 → burst_cont p c = false := by
    intro p c h
    simp only [burst_cont, time_diff, h]
    decide
  have h299 : ∀ p c : Event, c.ts - p.ts = 299 → burst_cont p c = true := by
    intro p c h
    simp only [burst_cont, time_diff, h]
    decide
  refine ⟨?_, ?_, ?_, ?_, by decide, by decide⟩
  · intro p c cur acc rest h
    rw [scan_runs_aux, h300 p c h, if_neg Bool.false_ne_true]
    simp only [decide_eq_true_eq]
  · intro p c cur acc rest h
    rw [scan_runs_aux, h299 p c h, if_pos rfl]
  · intro p c R rest h
    rw [run_split_aux, h300 p c h, if_neg Bool.false_ne_true]
  · intro p c R rest h
    rw [run_split_aux, h299 p c h, if_pos rfl]

/-- C6, witness: the four threshold clauses applied at concrete events 0,
299 and 300 seconds apart. -/
theorem c6_burst_threshold_witness :
    scan_runs_aux burst_cont (fun n => 1 < n) ⟨0, "A"⟩ 2 [] [⟨300, "A"⟩]
        = scan_runs_aux burst_cont (fun n => 1 < n) ⟨300, "A"⟩ 1
            ([] ++ if 1 < 2 then [2] else []) []
      ∧ scan_runs_aux burst_cont (fun n => 1 < n) ⟨0, "A"⟩ 2 [] [⟨299, "A"⟩]
          = scan_runs_aux burst_cont (fun n => 1 < n) ⟨299, "A"⟩ 3 [] []
      ∧ run_split_aux burst_cont ⟨0, "A"⟩ [⟨0, "A"⟩] [⟨300, "A"⟩]
          = [(⟨0, "A"⟩ : Event)].reverse :: run_split_aux burst_cont ⟨300, "A"⟩ [⟨300, "A"⟩] []
      ∧ run_split_aux burst_cont ⟨0, "A"⟩ [⟨0, "A"⟩] [⟨299, "A"⟩]
          = run_split_aux burst_cont ⟨299, "A"⟩ (⟨299, "A"⟩ :: [⟨0, "A"⟩]) [] :=
  ⟨c6_burst_threshold.1 _ _ 2 [] [] (by decide),
    c6_burst_threshold.2.1 _ _ 2 [] [] (by decide),
    c6_burst_threshold.2.2.1 _ _ _ [] (by decide),
    c6_burst_threshold.2.2.2.1 _ _ _ [] (by decide)⟩

/-- C7: the per-author reply-speed sample is exactly the speaker-change
latencies under 60 minutes attributed to the current author, and an
author appears in `avg_reply` with value q if and only if they have
strictly more than 5 qualifying samples and q is their mean. -/
theorem c7_reply_speed :
    (∀ (a : String) (es : List Event), reply_times a es = reply_sample_spec a es)
    ∧ (∀ (es : List Event) (a : String) (q : ℚ),
      (a, q) ∈ avg_reply es
        ↔ 5 < (reply_times a es).length
            ∧ q = (reply_times a es).sum / ((reply_times a es).length : ℚ)) :=
  ⟨reply_times_eq_spec, fun es a q => mem_avg_reply es a q⟩

/-- C8: a line parses to an event exactly when it matches the fixed
grammar; a produced event is never partial (full 10-character date and
5-character time); and parsing is local to each line — a batch splits
into independent per-line results, so a malformed line never aborts the
rest (determinism is inherent: `parseLine` is a function). -/
theorem c8_parse_total :
    ∀ line : List Char,
      ((∃ e, parseLine line = some e) ↔ line_match_spec line)
      ∧ (∀ e : RawEvent, parseLine line = some e →
          e.date.length = 10 ∧ e.time.length = 5)
      ∧ (∀ pre post : List (List Char),
          parse_chat (pre ++ post) = parse_chat pre ++ parse_chat post) := by
  intro line
  refine ⟨parseLine_some_iff line, ?_, ?_⟩
  · intro e he
    obtain ⟨dd, mm, yy, hh, mi, auth, msg, tail, w1, w2, w3, w4, h0, h1, _, h3,
      _, h5, _, h7, _, h9, _, _, _, _, _, _, _, _, _, _, hev⟩ := parseLine_decomp he
    subst hev
    constructor
    · simp [h1, h3, h5]
    · simp [h7, h9]
  · intro pre post
    simp [parse_chat, List.filterMap_append]

/-- C8, witness: a concrete well-formed line parses to its event, whose
date and time fields have full width. -/
theorem c8_parse_total_witness :
    parseLine "01/02/2023, 10:30 - Alice: hi there".toList
        = some ⟨"01/02/2023".toList, "10:30".toList, "Alice".toList,
            "hi there".toList⟩
      ∧ "01/02/2023".toList.length = 10 ∧ "10:30".toList.length = 5 :=
  ⟨by decide,
    (c8_parse_total "01/02/2023, 10:30 - Alice: hi there".toList).2.1
      ⟨"01/02/2023".toList, "10:30".toList, "Alice".toList, "hi there".toList⟩
      (by decide)⟩

/-- C9: credited responses never exceed the author's own message count,
so the response rate always lies within [0, 100] percent. -/
theorem c9_response_rate_bounds :
    ∀ (es : List Event) (a : String),
      author_responses a es ≤ author_messages a es
      ∧ (0 < author_messages a es →
          0 ≤ response_rate a es ∧ response_rate a es ≤ 100) := by
  intro es a
  refine ⟨author_responses_le a es, fun h => ⟨?_, ?_⟩⟩
  · exact mul_nonneg (div_nonneg (Nat.cast_nonneg _) (Nat.cast_nonneg _))
      (by norm_num)
  · have hm : (0 : ℚ) < (author_messages a es : ℚ) := by exact_mod_cast h
    have hr : (author_responses a es : ℚ) ≤ (author_messages a es : ℚ) := by
      exact_mod_cast author_responses_le a es
    have h1 : (author_responses a es : ℚ) / (author_messages a es : ℚ) ≤ 1 :=
      (div_le_one hm).mpr hr
    calc response_rate a es
        ≤ 1 * 100 := mul_le_mul_of_nonneg_right h1 (by norm_num)
      _ = 100 := by norm_num

/-- C9, witness: a two-event exchange where B replies once to A — rate
within bounds. -/
theorem c9_response_rate_bounds_witness :
    0 < author_messages "B" [⟨0, "A"⟩, ⟨60, "B"⟩]
      ∧ 0 ≤ response_rate "B" [⟨0, "A"⟩, ⟨60, "B"⟩]
      ∧ response_rate "B" [⟨0, "A"⟩, ⟨60, "B"⟩] ≤ 100 :=
  ⟨by decide,
    ((c9_response_rate_bounds [⟨0, "A"⟩, ⟨60, "B"⟩] "B").2 (by decide)).1,
    ((c9_response_rate_bounds [⟨0, "A"⟩, ⟨60, "B"⟩] "B").2 (by decide)).2⟩

/-- C10: every event produced from a newline-free line (as file lines
are) has a colon-free author — the grammar stops the author at the first
colon — and a message that is nonempty even after trimming. -/
theorem c10_event_invariants :
    ∀ line : List Char, '\n' ∉ line →
      ∀ e : RawEvent, parseLine line = some e →
        ':' ∉ e.author ∧ e.message ≠ [] := by
  intro line hnl e he
  obtain ⟨dd, mm, yy, hh, mi, auth, msg, tail, w1, w2, w3, w4, h0, _, _, _, _,
    _, _, _, _, _, _, _, _, _, _, hane, hanc, hmne, hmnn, htail, hev⟩ :=
    parseLine_decomp he
  subst hev
  constructor
  · intro hc
    exact hanc (mem_pyStrip hc)
  · have hnl2 : '\n' ∉ pyStrip line := fun h => hnl (mem_pyStrip h)
    have htail0 : tail = [] := by
      rcases htail with rfl | ⟨t, rfl⟩
      · rfl
      · exact absurd (show '\n' ∈ pyStrip line by rw [h0]; simp) hnl2
    subst htail0
    rw [List.append_nil] at h0
    have hu : pyStrip line
        = (dd ++ '/' :: mm ++ '/' :: yy
            ++ (',' :: w1 :: (hh ++ ':' :: mi
              ++ (w2 :: '-' :: w3 :: (auth ++ [':', w4]))))) ++ msg := by
      rw [h0]; simp [List.append_assoc]
    have hg : (pyStrip line).getLast? = msg.getLast? := by
      rw [hu]; exact getLast?_append_right hmne
    obtain ⟨x, hx⟩ : ∃ x, msg.getLast? = some x := by
      cases hmg : msg.getLast? with
      | none => exact absurd (by simpa using hmg) hmne
      | some y => exact ⟨y, rfl⟩
    have hxs : isPySpace x = false :=
      pyStrip_getLast_not_space (by rw [hg]; exact hx)
    exact pyStrip_ne_nil (mem_of_getLast?_eq hx) hxs

/-- C10, witness: a concrete newline-free line parses to an event with a
colon-free author and a nonempty trimmed message. -/
theorem c10_event_invariants_witness :
    '\n' ∉ "01/02/2023, 10:30 - Alice: hi".toList
      ∧ parseLine "01/02/2023, 10:30 - Alice: hi".toList
          = some ⟨"01/02/2023".toList, "10:30".toList, "Alice".toList, "hi".toList⟩
      ∧ ':' ∉ "Alice".toList ∧ "hi".toList ≠ ([] : List Char) :=
  ⟨by decide, by decide,
    (c10_event_invariants "01/02/2023, 10:30 - Alice: hi".toList (by decide)
      ⟨"01/02/2023".toList, "10:30".toList, "Alice".toList, "hi".toList⟩
      (by decide)).1,
    (c10_event_invariants "01/02/2023, 10:30 - Alice: hi".toList (by decide)
      ⟨"01/02/2023".toList, "10:30".toList, "Alice".toList, "hi".toList⟩
      (by decide)).2⟩

example : bursts [⟨0, "A"⟩, ⟨60, "A"⟩] = [] := by decide
example : bursts [⟨0, "A"⟩, ⟨299, "A"⟩, ⟨100000, "A"⟩] = [2] := by decide
example : bursts [⟨0, "A"⟩, ⟨300, "A"⟩, ⟨100000, "A"⟩] = [] := by decide
example :
    interactions [⟨0, "A"⟩, ⟨180, "B"⟩, ⟨720, "B"⟩, ⟨840, "A"⟩]
      = [("A", "B"), ("B", "A")] := by decide
example :
    streak_analysis [⟨0, "A"⟩, ⟨86400, "A"⟩, ⟨172800, "A"⟩, ⟨432000, "A"⟩, ⟨518400, "A"⟩]
      = some (3, 2) := by decide
example :
    response_times [⟨0, "A"⟩, ⟨60, "B"⟩, ⟨240, "A"⟩, ⟨480, "B"⟩, ⟨1080, "A"⟩]
      = [1, 3, 4, 10] := by decide
example :
    response_time_median [⟨0, "A"⟩, ⟨60, "B"⟩, ⟨240, "A"⟩, ⟨480, "B"⟩, ⟨1080, "A"⟩]
      = some 4 := by decide
example : monologue_detection [⟨0, "A"⟩] = some [] := by decide
example : streak_analysis [] = none := rfl
